import Mathlib

/-!
Verification development for the LM Studio embeddings n8n node
(`src/nodes/LMStudioEmbeddings.node.ts`, `src/credentials/LMStudioApi.credentials.ts`).

The node's behaviour is embedded shallowly:

* a document (`Doc`) is `Option String` — JS strings may be `null` at runtime,
  and the code's truthiness test `doc && doc.trim()` treats `null`, `""` and
  whitespace-only strings alike;
* an embedding vector (`Emb`) is `List Int` — the numeric contents of the
  vectors are opaque to all of the node's control flow, only their positions
  and emptiness matter;
* the HTTP world is an oracle `Env.respond : Nat → ReqInput → Option (List Emb)`
  keyed by the index of the request in issue order, so that every combination
  of per-request successes (`some data`, where `data` models the response's
  `data` array with each element standing for its `embedding` field) and
  failures (`none`, a thrown transport/server error) is representable;
* the `new OpenAIEmbeddings(...)` constructor is a boolean `Env.ctorOk`
  (`false` = the constructor throws, caught by the outer try/catch).

Each function additionally returns the trace of requests it issued, so that
claims about "exactly one request" or "zero requests" are statable.
-/

set_option autoImplicit false

namespace LMStudio

/-- An embedding vector. Its numeric content is irrelevant to the node's
control flow, so `Int` components suffice. -/
abbrev Emb := List Int

/-- A document passed to `embedDocuments`: a JS string that may be `null`. -/
abbrev Doc := Option String

/-- The `input` payload of an embeddings request: the batched form
(`input: validBatch`) or the single-text form (`input: doc` / `input: text`). -/
inductive ReqInput where
  | batch : List String → ReqInput
  | single : String → ReqInput
deriving DecidableEq, Repr

/-- The external world seen by one provider-method invocation: whether
`new OpenAIEmbeddings(...)` succeeds, and the outcome of the k-th HTTP
embeddings request issued during the invocation (`none` = the await throws;
`some data` = success, `data` listing the `embedding` field of each element
of the response's `data` array in order). -/
structure Env where
  ctorOk : Bool
  respond : Nat → ReqInput → Option (List Emb)

/-- JS test `!s.trim()`: a string is blank when every character is
whitespace (so its trim is the empty string, which is falsy). -/
def isBlank (s : String) : Bool :=
  s.data.all Char.isWhitespace

/-- JS truthiness test `doc && doc.trim()` from the source: a document
participates in requests iff it is non-null and its trim is non-empty. -/
def isValid : Doc → Bool
  | none => false
  | some s => !isBlank s

/-- The string carried by a document (`""` for `null`; only ever used on
valid documents, whose string is present). -/
def docStr : Doc → String
  | none => ""
  | some s => s

/-- Embeds `const validBatch = batch.filter(doc => doc && doc.trim())`:
the non-blank documents of a chunk, in order, as the strings sent to the API. -/
def validBatch (batch : List Doc) : List String :=
  batch.filterMap fun d =>
    match d with
    | none => none
    | some s => if isBlank s then none else some s

/-- Embeds the per-item fallback loop body for one document `doc` at request
counter `k`: a blank document yields `[]` without a request; a valid one
issues `input: doc`, pushing `data[0].embedding` on success and `[]` when the
request throws or `data[0]` is absent (the `data[0].embedding` access throws
and is caught by the per-item catch). Returns (result, next counter, trace). -/
def fallbackItem (env : Env) (k : Nat) (d : Doc) : Emb × Nat × List ReqInput :=
  if isValid d then
    match env.respond k (.single (docStr d)) with
    | none => ([], k + 1, [.single (docStr d)])
    | some data =>
      match data.head? with
      | none => ([], k + 1, [.single (docStr d)])
      | some e => (e, k + 1, [.single (docStr d)])
  else
    ([], k, [])

/-- Embeds the whole per-item fallback loop (`catch (batchError)` branch) over
a chunk, threading the request counter. -/
def fallbackChunk (env : Env) (k : Nat) : List Doc → List Emb × Nat × List ReqInput
  | [] => ([], k, [])
  | d :: rest =>
    let (e, k1, t1) := fallbackItem env k d
    let (es, k2, t2) := fallbackChunk env k1 rest
    (e :: es, k2, t1 ++ t2)

/-- Embeds the success-path mapping loop
(`for (const doc of batch) { ... results.push(data[validIndex].embedding) ... }`).
Walks the chunk, consuming one response embedding per valid document; blank
documents get `[]`. The boolean is `false` when `data` runs out at a valid
document — in the source `data[validIndex]` is `undefined` there, so
`.embedding` throws mid-loop with the earlier pushes already in `results`,
and control passes to the fallback path. The returned list holds exactly the
elements pushed before the throw. -/
def mapBatch : List Doc → List Emb → List Emb × Bool
  | [], _ => ([], true)
  | d :: rest, data =>
    if isValid d then
      match data with
      | [] => ([], false)
      | e :: data' =>
        let (r, ok) := mapBatch rest data'
        (e :: r, ok)
    else
      let (r, ok) := mapBatch rest data
      ([] :: r, ok)

/-- Embeds one iteration of the chunk loop of `embedDocuments`: the empty
valid-subset shortcut, the single batched request, the success-path mapping,
and — when the batched request throws or the mapping dies on a short `data` —
the per-item fallback appended after whatever the mapping already pushed. -/
def processChunk (env : Env) (k : Nat) (batch : List Doc) : List Emb × Nat × List ReqInput :=
  let vb := validBatch batch
  if vb.isEmpty then
    (batch.map fun _ => [], k, [])
  else
    match env.respond k (.batch vb) with
    | some data =>
      let (r, ok) := mapBatch batch data
      if ok then
        (r, k + 1, [.batch vb])
      else
        let (fr, k2, t2) := fallbackChunk env (k + 1) batch
        (r ++ fr, k2, .batch vb :: t2)
    | none =>
      let (fr, k2, t2) := fallbackChunk env (k + 1) batch
      (fr, k2, .batch vb :: t2)

/-- Processes the chunks in order, threading the request counter and
concatenating results into the shared `results` array. -/
def processChunks (env : Env) (k : Nat) : List (List Doc) → List Emb × Nat × List ReqInput
  | [] => ([], k, [])
  | c :: cs =>
    let (r, k1, t1) := processChunk env k c
    let (rs, k2, t2) := processChunks env k1 cs
    (r ++ rs, k2, t1 ++ t2)

/-- Fuel-bounded chunking: each step emits `documents.slice(i, i + batchSize)`
and drops `batchSize` elements, mirroring `for (let i = 0; i < documents.length;
i += batchSize)`. Fuel `l.length` suffices whenever `1 ≤ B`. -/
def chunksAux (B : Nat) : Nat → List Doc → List (List Doc)
  | 0, _ => []
  | _, [] => []
  | fuel + 1, l => l.take B :: chunksAux B fuel (l.drop B)

/-- The chunks visited by the loop of `embedDocuments` for batch size `B`. -/
def chunks (B : Nat) (l : List Doc) : List (List Doc) :=
  chunksAux B l.length l

/-- The body of `embedDocuments` after the null/empty guard and a successful
client construction: the full chunk loop. Returns (results, request trace). -/
def embedDocumentsRun (env : Env) (B : Nat) (docs : List Doc) : List Emb × List ReqInput :=
  let (r, _, t) := processChunks env 0 (chunks B docs)
  (r, t)

/-- Embeds `embedDocuments`: throws `'No documents provided'` when the
argument is `null` or empty; throws the wrapped constructor error when
`new OpenAIEmbeddings` fails; otherwise runs the chunk loop, which never
throws (every request failure is caught by an inner catch). -/
def embedDocuments (env : Env) (B : Nat) (docs? : Option (List Doc)) :
    Except String (List Emb × List ReqInput) :=
  match docs? with
  | none => .error "No documents provided"
  | some docs =>
    if docs.isEmpty then
      .error "No documents provided"
    else if env.ctorOk then
      .ok (embedDocumentsRun env B docs)
    else
      .error "Error generating document embeddings"

/-- Embeds `embedQuery`: the `!text || !text.trim()` guard, the client
construction, one request with `input: text`, returning `data[0].embedding`
on success and the wrapped error when the request throws or `data[0]` is
absent. Returns (result, request trace). -/
def embedQuery (env : Env) (text? : Option String) :
    Except String Emb × List ReqInput :=
  match text? with
  | none => (.error "Text content is empty", [])
  | some t =>
    if isBlank t then
      (.error "Text content is empty", [])
    else if env.ctorOk then
      match env.respond 0 (.single t) with
      | none => (.error "Error generating embedding", [.single t])
      | some data =>
        match data.head? with
        | none => (.error "Error generating embedding", [.single t])
        | some e => (.ok e, [.single t])
    else
      (.error "Error generating embedding", [])

/-- OpenAI-compatible response contract assumed by the success-path mapping:
a successful batched request returns one `data` element per submitted input. -/
def WF (env : Env) : Prop :=
  ∀ k inp data, env.respond k (.batch inp) = some data → data.length = inp.length

/-- What one output slot may hold, relative to its input document: a blank
document always yields the empty placeholder, and a non-empty embedding can
only be an element of some successful response's `data` array (failed
requests degrade to the placeholder, never to junk). -/
def SlotOk (env : Env) (d : Doc) (e : Emb) : Prop :=
  (isValid d = false → e = []) ∧
  (e ≠ [] → ∃ k inp data, env.respond k inp = some data ∧ e ∈ data)

/-- Positional alignment of an output list with its input list. -/
def Aligned (env : Env) : List Doc → List Emb → Prop :=
  List.Forall₂ (SlotOk env)

theorem slotOk_nil (env : Env) (d : Doc) : SlotOk env d [] :=
  ⟨fun _ => rfl, fun h => absurd rfl h⟩

theorem aligned_map_const (env : Env) : ∀ (batch : List Doc),
    Aligned env batch (batch.map fun _ => [])
  | [] => List.Forall₂.nil
  | _ :: rest => List.Forall₂.cons (slotOk_nil env _) (aligned_map_const env rest)

theorem aligned_append {env : Env} {l₁ l₂ : List Doc} {r₁ r₂ : List Emb}
    (h₁ : Aligned env l₁ r₁) (h₂ : Aligned env l₂ r₂) :
    Aligned env (l₁ ++ l₂) (r₁ ++ r₂) := by
  induction h₁ with
  | nil => exact h₂
  | cons hd _ ih => exact List.Forall₂.cons hd ih

theorem validBatch_cons (d : Doc) (rest : List Doc) :
    validBatch (d :: rest) =
      if isValid d then docStr d :: validBatch rest else validBatch rest := by
  cases d with
  | none => simp [validBatch, isValid, docStr]
  | some s =>
    by_cases h : isBlank s <;> simp [validBatch, isValid, docStr, h]

theorem fallbackItem_invalid {d : Doc} (h : isValid d = false) (env : Env) (k : Nat) :
    fallbackItem env k d = ([], k, []) := by
  simp [fallbackItem, h]

theorem fallbackItem_slotOk (env : Env) (k : Nat) (d : Doc) :
    SlotOk env d (fallbackItem env k d).1 := by
  by_cases hv : isValid d
  · cases hr : env.respond k (.single (docStr d)) with
    | none =>
      have h1 : (fallbackItem env k d).1 = [] := by simp [fallbackItem, hv, hr]
      rw [h1]; exact slotOk_nil env d
    | some data =>
      cases hh : data.head? with
      | none =>
        have h1 : (fallbackItem env k d).1 = [] := by simp [fallbackItem, hv, hr, hh]
        rw [h1]; exact slotOk_nil env d
      | some e =>
        have h1 : (fallbackItem env k d).1 = e := by simp [fallbackItem, hv, hr, hh]
        rw [h1]
        exact ⟨fun hf => Bool.noConfusion (hv.symm.trans hf),
          fun _ => ⟨k, .single (docStr d), data, hr,
            List.mem_of_mem_head? (Option.mem_def.mpr hh)⟩⟩
  · have hv' : isValid d = false := by simpa using hv
    rw [fallbackItem_invalid hv']
    exact slotOk_nil env d

theorem fallbackChunk_cons (env : Env) (k : Nat) (d : Doc) (rest : List Doc) :
    fallbackChunk env k (d :: rest) =
      ((fallbackItem env k d).1 :: (fallbackChunk env (fallbackItem env k d).2.1 rest).1,
        (fallbackChunk env (fallbackItem env k d).2.1 rest).2.1,
        (fallbackItem env k d).2.2 ++ (fallbackChunk env (fallbackItem env k d).2.1 rest).2.2) := by
  rcases hd : fallbackItem env k d with ⟨e, k1, t1⟩
  rcases hr : fallbackChunk env k1 rest with ⟨es, k2, t2⟩
  simp [fallbackChunk, hd, hr]

theorem fallbackChunk_aligned (env : Env) :
    ∀ (batch : List Doc) (k : Nat), Aligned env batch (fallbackChunk env k batch).1 := by
  intro batch
  induction batch with
  | nil => intro k; exact List.Forall₂.nil
  | cons d rest ih =>
    intro k
    rw [fallbackChunk_cons]
    exact List.Forall₂.cons (fallbackItem_slotOk env k d) (ih _)

theorem mapBatch_cons_valid {d : Doc} (h : isValid d = true) (rest : List Doc)
    (e : Emb) (data' : List Emb) :
    mapBatch (d :: rest) (e :: data') =
      (e :: (mapBatch rest data').1, (mapBatch rest data').2) := by
  rcases hm : mapBatch rest data' with ⟨r, ok⟩
  simp [mapBatch, h, hm]

theorem mapBatch_cons_invalid {d : Doc} (h : isValid d = false) (rest : List Doc)
    (data : List Emb) :
    mapBatch (d :: rest) data = ([] :: (mapBatch rest data).1, (mapBatch rest data).2) := by
  rcases hm : mapBatch rest data with ⟨r, ok⟩
  simp [mapBatch, h, hm]

/-- When the response has at least one embedding per valid document, the
success-path mapping completes (no mid-loop throw) and is aligned: valid
documents consume response embeddings in order, blanks get placeholders. -/
theorem mapBatch_aligned {env : Env} {k : Nat} {vb : List String} {dataFull : List Emb}
    (hr : env.respond k (.batch vb) = some dataFull) :
    ∀ (batch : List Doc) (data : List Emb), data.Sublist dataFull →
      (validBatch batch).length ≤ data.length →
      (mapBatch batch data).2 = true ∧ Aligned env batch (mapBatch batch data).1 := by
  intro batch
  induction batch with
  | nil => intro data _ _; exact ⟨rfl, List.Forall₂.nil⟩
  | cons d rest ih =>
    intro data hsub hlen
    by_cases hv : isValid d
    · rw [validBatch_cons, if_pos hv] at hlen
      cases data with
      | nil => simp at hlen
      | cons e data' =>
        have hlen' : (validBatch rest).length ≤ data'.length := by
          simpa using hlen
        obtain ⟨hok, hal⟩ := ih data' ((List.sublist_cons_self e data').trans hsub) hlen'
        rw [mapBatch_cons_valid hv]
        refine ⟨hok, List.Forall₂.cons ⟨fun hf => Bool.noConfusion (hv.symm.trans hf), fun _ => ?_⟩ hal⟩
        exact ⟨k, .batch vb, dataFull, hr, hsub.subset (List.mem_cons_self e data')⟩
    · have hv' : isValid d = false := by simpa using hv
      rw [validBatch_cons, if_neg hv] at hlen
      obtain ⟨hok, hal⟩ := ih data hsub hlen
      rw [mapBatch_cons_invalid hv']
      exact ⟨hok, List.Forall₂.cons (slotOk_nil env d) hal⟩

theorem processChunk_aligned {env : Env} (hwf : WF env) (k : Nat) (batch : List Doc) :
    Aligned env batch (processChunk env k batch).1 := by
  by_cases hvb : (validBatch batch).isEmpty
  · have h1 : (processChunk env k batch).1 = batch.map fun _ => [] := by
      simp [processChunk, hvb]
    rw [h1]; exact aligned_map_const env batch
  · cases hr : env.respond k (.batch (validBatch batch)) with
    | none =>
      rcases hf : fallbackChunk env (k + 1) batch with ⟨fr, k2, t2⟩
      have h1 : (processChunk env k batch).1 = fr := by
        simp [processChunk, hvb, hr, hf]
      rw [h1]
      have := fallbackChunk_aligned env batch (k + 1)
      rwa [hf] at this
    | some data =>
      have hlen : data.length = (validBatch batch).length := hwf k _ data hr
      obtain ⟨hok, hal⟩ :=
        mapBatch_aligned hr batch data (List.Sublist.refl data) (le_of_eq hlen.symm)
      rcases hm : mapBatch batch data with ⟨r, ok⟩
      rw [hm] at hok hal
      have h1 : (processChunk env k batch).1 = r := by
        simp [processChunk, hvb, hr, hm, hok]
      rw [h1]; exact hal

theorem processChunks_cons (env : Env) (k : Nat) (c : List Doc) (cs : List (List Doc)) :
    processChunks env k (c :: cs) =
      ((processChunk env k c).1 ++ (processChunks env (processChunk env k c).2.1 cs).1,
        (processChunks env (processChunk env k c).2.1 cs).2.1,
        (processChunk env k c).2.2 ++ (processChunks env (processChunk env k c).2.1 cs).2.2) := by
  rcases hc : processChunk env k c with ⟨r, k1, t1⟩
  rcases hcs : processChunks env k1 cs with ⟨rs, k2, t2⟩
  simp [processChunks, hc, hcs]

theorem processChunks_aligned {env : Env} (hwf : WF env) :
    ∀ (cs : List (List Doc)) (k : Nat),
      Aligned env cs.flatten (processChunks env k cs).1 := by
  intro cs
  induction cs with
  | nil => intro k; exact List.Forall₂.nil
  | cons c cs ih =>
    intro k
    rw [processChunks_cons]
    exact aligned_append (processChunk_aligned hwf k c) (ih _)

theorem chunksAux_join {B : Nat} (hB : 1 ≤ B) :
    ∀ (fuel : Nat) (l : List Doc), l.length ≤ fuel → (chunksAux B fuel l).flatten = l := by
  intro fuel
  induction fuel with
  | zero =>
    intro l h
    have hl : l = [] := List.eq_nil_of_length_eq_zero (Nat.le_zero.mp h)
    subst hl; rfl
  | succ fuel ih =>
    intro l h
    cases l with
    | nil => rfl
    | cons d rest =>
      have hdrop : ((d :: rest).drop B).length ≤ fuel := by
        rw [List.length_drop]
        simp only [List.length_cons] at h ⊢
        omega
      show ((d :: rest).take B :: chunksAux B fuel ((d :: rest).drop B)).flatten = d :: rest
      rw [List.flatten, ih _ hdrop]
      exact List.take_append_drop B (d :: rest)

theorem chunks_join {B : Nat} (hB : 1 ≤ B) (l : List Doc) :
    (chunks B l).flatten = l :=
  chunksAux_join hB l.length l le_rfl

/-- An environment in which every request fails; used to instantiate theorems
at concrete inputs. -/
def wEnvNone : Env := ⟨true, fun _ _ => none⟩

/-- Claim C1: for every input list of length N, every batch size B ≥ 1, and every
combination of per-chunk request successes and failures (successes carrying
one embedding per submitted input, per the response contract), a successful
`embedDocuments` call returns exactly N slots positionally aligned with the
input: blank inputs always hold the empty placeholder, and a non-empty slot
can only be an embedding taken from a successful response, so positions whose
requests all failed hold the placeholder. -/
theorem embedDocuments_length_aligned (env : Env) (B : Nat) (docs : List Doc)
    (p : List Emb × List ReqInput) (hB : 1 ≤ B) (hwf : WF env)
    (hok : embedDocuments env B (some docs) = .ok p) :
    p.1.length = docs.length ∧ Aligned env docs p.1 := by
  cases docs with
  | nil => simp [embedDocuments] at hok
  | cons d rest =>
    by_cases hc : env.ctorOk
    · simp [embedDocuments, hc] at hok
      subst hok
      have hal : Aligned env (chunks B (d :: rest)).flatten
          (processChunks env 0 (chunks B (d :: rest))).1 :=
        processChunks_aligned hwf (chunks B (d :: rest)) 0
      rw [chunks_join hB] at hal
      have hrun : (embedDocumentsRun env B (d :: rest)).1 =
          (processChunks env 0 (chunks B (d :: rest))).1 := by
        rcases hp : processChunks env 0 (chunks B (d :: rest)) with ⟨r, k, t⟩
        simp [embedDocumentsRun, hp]
      rw [hrun]
      exact ⟨(List.Forall₂.length_eq hal).symm, hal⟩
    · simp [embedDocuments, hc] at hok

/-- Witness for C1 at a concrete input: two documents, one valid and one
null, batch size 1, all requests failing. -/
theorem embedDocuments_length_aligned_witness :
    1 ≤ 1 ∧ WF wEnvNone ∧
      (embedDocumentsRun wEnvNone 1 [some "a", none]).1.length = 2 ∧
      Aligned wEnvNone [some "a", none] (embedDocumentsRun wEnvNone 1 [some "a", none]).1 := by
  have hwf : WF wEnvNone := fun _ _ _ h => Option.noConfusion h
  have hok : embedDocuments wEnvNone 1 (some [some "a", none]) =
      .ok (embedDocumentsRun wEnvNone 1 [some "a", none]) := by
    simp [embedDocuments, wEnvNone]
  obtain ⟨h1, h2⟩ :=
    embedDocuments_length_aligned wEnvNone 1 [some "a", none] _ le_rfl hwf hok
  exact ⟨le_rfl, hwf, h1, h2⟩

/-- Claim C2: `embedDocuments` raises if and only if the input list is null or
empty or the embedding-client construction fails; once the chunk loop is
reached, every request failure degrades to placeholders and the call still
returns a result. -/
theorem embedDocuments_error_iff (env : Env) (B : Nat) (docs? : Option (List Doc)) :
    (∃ msg, embedDocuments env B docs? = .error msg) ↔
      (docs? = none ∨ docs? = some [] ∨ env.ctorOk = false) := by
  constructor
  · rintro ⟨msg, hmsg⟩
    cases docs? with
    | none => exact Or.inl rfl
    | some docs =>
      cases docs with
      | nil => exact Or.inr (Or.inl rfl)
      | cons d rest =>
        by_cases hc : env.ctorOk
        · exfalso; simp [embedDocuments, hc] at hmsg
        · exact Or.inr (Or.inr (by simpa using hc))
  · rintro (h | h | h)
    · subst h; exact ⟨"No documents provided", rfl⟩
    · subst h; exact ⟨"No documents provided", by simp [embedDocuments]⟩
    · cases docs? with
      | none => exact ⟨"No documents provided", rfl⟩
      | some docs =>
        cases docs with
        | nil => exact ⟨"No documents provided", by simp [embedDocuments]⟩
        | cons d rest =>
          exact ⟨"Error generating document embeddings", by simp [embedDocuments, h]⟩

/-- An environment in which the single request for "hi" succeeds with the
embedding `[5]`; used to instantiate theorems at concrete inputs. -/
def wEnvQ : Env := ⟨true, fun _ r => if r = .single "hi" then some [[5]] else none⟩

/-- Claim C3: `embedQuery` fails with the empty-input error exactly when the text
is null or blank after trimming; for non-blank text (and a constructible
client) it issues exactly one request with that text, and a success returns
the `embedding` field of the response element at index 0. -/
theorem embedQuery_spec (env : Env) (text? : Option String) :
    ((embedQuery env text?).1 = .error "Text content is empty" ↔
      (text? = none ∨ ∃ t, text? = some t ∧ isBlank t = true)) ∧
    (∀ t, text? = some t → isBlank t = false → env.ctorOk = true →
      (embedQuery env text?).2 = [.single t] ∧
      ∀ e data, env.respond 0 (.single t) = some (e :: data) →
        (embedQuery env text?).1 = .ok e) := by
  cases text? with
  | none =>
    exact ⟨⟨fun _ => Or.inl rfl, fun _ => rfl⟩, fun t ht => Option.noConfusion ht⟩
  | some t =>
    by_cases hb : isBlank t
    · refine ⟨⟨fun _ => Or.inr ⟨t, rfl, hb⟩, fun _ => by simp [embedQuery, hb]⟩, ?_⟩
      intro t' ht' hb'
      injection ht' with h
      subst h
      rw [hb] at hb'
      cases hb'
    · have hb' : isBlank t = false := by simpa using hb
      constructor
      · constructor
        · intro herr
          exfalso
          by_cases hc : env.ctorOk
          · cases hr : env.respond 0 (.single t) with
            | none => simp [embedQuery, hb', hc, hr] at herr
            | some data =>
              cases data with
              | nil => simp [embedQuery, hb', hc, hr] at herr
              | cons e rest => simp [embedQuery, hb', hc, hr] at herr
          · have hcf : env.ctorOk = false := by simpa using hc
            simp [embedQuery, hb', hcf] at herr
        · rintro (h | ⟨t', ht', hbt⟩)
          · cases h
          · injection ht' with h; subst h; rw [hb'] at hbt; cases hbt
      · intro t' ht' _ hc
        injection ht' with h
        subst h
        refine ⟨?_, ?_⟩
        · cases hr : env.respond 0 (.single t) with
          | none => simp [embedQuery, hb', hc, hr]
          | some data =>
            cases data with
            | nil => simp [embedQuery, hb', hc, hr]
            | cons e rest => simp [embedQuery, hb', hc, hr]
        · intro e data hr
          simp [embedQuery, hb', hc, hr]

/-- Witness for C3: the request for "hi" succeeds with embedding `[5]`;
a whitespace-only text hits the empty-input error. -/
theorem embedQuery_spec_witness :
    (embedQuery wEnvQ (some "hi")).2 = [.single "hi"] ∧
    (embedQuery wEnvQ (some "hi")).1 = .ok [5] ∧
    (embedQuery wEnvQ (some " ")).1 = .error "Text content is empty" := by
  have h2 := (embedQuery_spec wEnvQ (some "hi")).2 "hi" rfl (by decide) rfl
  exact ⟨h2.1, h2.2 [5] [] (by decide),
    ((embedQuery_spec wEnvQ (some " ")).1).mpr (Or.inr ⟨" ", rfl, by decide⟩)⟩

theorem validBatch_eq_nil {batch : List Doc}
    (hall : ∀ d ∈ batch, isValid d = false) : validBatch batch = [] := by
  rw [validBatch, List.filterMap_eq_nil_iff]
  intro d hd
  have := hall d hd
  cases d with
  | none => rfl
  | some s =>
    have hbs : isBlank s = true := by simpa [isValid] using this
    simp [hbs]

theorem processChunk_all_blank (env : Env) (k : Nat) {batch : List Doc}
    (hall : ∀ d ∈ batch, isValid d = false) :
    processChunk env k batch = (batch.map fun _ => [], k, []) := by
  simp [processChunk, validBatch_eq_nil hall]

theorem map_const_eq_replicate : ∀ (l : List Doc),
    (l.map fun _ => ([] : Emb)) = List.replicate l.length []
  | [] => rfl
  | _ :: rest => by simp [List.replicate, map_const_eq_replicate rest]

theorem processChunks_all_blank (env : Env) :
    ∀ (cs : List (List Doc)) (k : Nat), (∀ c ∈ cs, ∀ d ∈ c, isValid d = false) →
      processChunks env k cs = (cs.flatten.map fun _ => [], k, []) := by
  intro cs
  induction cs with
  | nil => intro k _; rfl
  | cons c cs ih =>
    intro k hall
    rw [processChunks_cons,
      processChunk_all_blank env k (hall c (List.mem_cons_self c cs)),
      ih k fun c' hc' => hall c' (List.mem_cons_of_mem c hc')]
    simp

/-- Claim C5: when every item of a non-empty list is blank (null, empty or
whitespace-only), `embedDocuments` returns one empty placeholder per item and
issues no embeddings request at all. -/
theorem embedDocuments_all_blank (env : Env) (B : Nat) (docs : List Doc)
    (hB : 1 ≤ B) (hne : docs ≠ []) (hctor : env.ctorOk = true)
    (hall : ∀ d ∈ docs, isValid d = false) :
    embedDocuments env B (some docs) = .ok (List.replicate docs.length [], []) := by
  have hchunks : ∀ c ∈ chunks B docs, ∀ d ∈ c, isValid d = false := by
    intro c hc d hd
    refine hall d ?_
    rw [← chunks_join hB docs]
    exact List.mem_flatten.mpr ⟨c, hc, hd⟩
  have hrun : embedDocumentsRun env B docs = (List.replicate docs.length [], []) := by
    rw [embedDocumentsRun, processChunks_all_blank env (chunks B docs) 0 hchunks,
      chunks_join hB docs]
    simp [map_const_eq_replicate]
  cases docs with
  | nil => exact absurd rfl hne
  | cons d rest => simp [embedDocuments, hctor, hrun]

/-- Witness for C5: two blank documents (a null and a whitespace string). -/
theorem embedDocuments_all_blank_witness :
    embedDocuments wEnvNone 1 (some [none, some " "]) = .ok ([[], []], []) := by
  have h := embedDocuments_all_blank wEnvNone 1 [none, some " "] le_rfl
    (by decide) rfl (by decide)
  simpa using h

theorem fallbackChunk_all_succeed {env : Env} {f : String → Emb}
    (hitem : ∀ k' s, env.respond k' (.single s) = some [f s]) :
    ∀ (batch : List Doc) (k : Nat),
      (fallbackChunk env k batch).1 =
        batch.map fun d => if isValid d then f (docStr d) else [] := by
  intro batch
  induction batch with
  | nil => intro k; rfl
  | cons d rest ih =>
    intro k
    rw [fallbackChunk_cons, List.map_cons, ih]
    by_cases hv : isValid d
    · simp [fallbackItem, hv, hitem k (docStr d)]
    · have hv' : isValid d = false := by simpa using hv
      simp [fallbackItem_invalid hv', hv']

theorem mapBatch_exact (f : String → Emb) : ∀ (batch : List Doc),
    mapBatch batch ((validBatch batch).map f) =
      (batch.map fun d => if isValid d then f (docStr d) else [], true) := by
  intro batch
  induction batch with
  | nil => rfl
  | cons d rest ih =>
    rw [validBatch_cons]
    by_cases hv : isValid d
    · rw [if_pos hv, List.map_cons, mapBatch_cons_valid hv, ih, List.map_cons, if_pos hv]
    · have hv' : isValid d = false := by simpa using hv
      rw [if_neg hv, mapBatch_cons_invalid hv', ih, List.map_cons, if_neg hv]

theorem isValid_eq_false_of_validBatch_nil {batch : List Doc}
    (h : validBatch batch = []) : ∀ d ∈ batch, isValid d = false := by
  intro d hd
  rw [validBatch, List.filterMap_eq_nil_iff] at h
  have := h d hd
  cases d with
  | none => rfl
  | some s =>
    by_cases hb : isBlank s
    · simp [isValid, hb]
    · simp [hb] at this

/-- Claim C4: if a chunk's single batched request fails in environment `env` but
every per-item fallback request succeeds with embedding `f s` for text `s`,
then the chunk's output equals, element by element, the output produced in an
environment `env2` whose batched request succeeds with those same embeddings
— and both equal one embedding per valid item, placeholders for blanks. -/
theorem processChunk_fallback_equiv (env env2 : Env) (k : Nat) (batch : List Doc)
    (f : String → Emb)
    (hfail : env.respond k (.batch (validBatch batch)) = none)
    (hitem : ∀ k' s, env.respond k' (.single s) = some [f s])
    (hsucc : env2.respond k (.batch (validBatch batch)) = some ((validBatch batch).map f)) :
    (processChunk env k batch).1 = (processChunk env2 k batch).1 ∧
    (processChunk env k batch).1 =
      batch.map fun d => if isValid d then f (docStr d) else [] := by
  by_cases hvb : (validBatch batch).isEmpty
  · have h1 : (processChunk env k batch).1 = batch.map fun _ => [] := by
      simp [processChunk, hvb]
    have h2 : (processChunk env2 k batch).1 = batch.map fun _ => [] := by
      simp [processChunk, hvb]
    have hnil : validBatch batch = [] := by simpa [List.isEmpty_iff] using hvb
    have hmap : (batch.map fun _ => ([] : Emb)) =
        batch.map fun d => if isValid d then f (docStr d) else [] := by
      apply List.map_congr_left
      intro d hd
      rw [isValid_eq_false_of_validBatch_nil hnil d hd]
      simp
    exact ⟨h1.trans h2.symm, h1.trans hmap⟩
  · have hfb : (processChunk env k batch).1 =
        batch.map fun d => if isValid d then f (docStr d) else [] := by
      rcases hf : fallbackChunk env (k + 1) batch with ⟨fr, k2, t2⟩
      have hfr : (processChunk env k batch).1 = fr := by
        simp [processChunk, hvb, hfail, hf]
      rw [hfr]
      have := fallbackChunk_all_succeed hitem batch (k + 1)
      rwa [hf] at this
    have hok : (processChunk env2 k batch).1 =
        batch.map fun d => if isValid d then f (docStr d) else [] := by
      simp [processChunk, hvb, hsucc, mapBatch_exact f batch]
    exact ⟨hfb.trans hok.symm, hfb⟩

/-- Environment for the C4 witness: the batched request fails, every single
request succeeds with embedding `[7]`. -/
def c4Env : Env :=
  ⟨true, fun _ r => match r with
    | .single _ => some [[7]]
    | .batch _ => none⟩

/-- Environment for the C4 witness: every request succeeds with `data` equal
to `[[7]]`. -/
def c4Env2 : Env := ⟨true, fun _ _ => some [[7]]⟩

/-- Witness for C4 at a chunk with one valid and one null document. -/
theorem processChunk_fallback_equiv_witness :
    (processChunk c4Env 0 [some "x", none]).1 = (processChunk c4Env2 0 [some "x", none]).1 ∧
    (processChunk c4Env 0 [some "x", none]).1 = [[7], []] := by
  have h := processChunk_fallback_equiv c4Env c4Env2 0 [some "x", none] (fun _ => [7])
    (by decide) (fun _ _ => rfl) (by decide)
  refine ⟨h.1, h.2.trans (by decide)⟩

/-- Environment for the C6 scenario: the first request (chunk 1's batch,
`["hello"]`) returns one embedding `[1]`; the second request (chunk 2's
batch, `["world"]`) returns `[2]`. -/
def c6Env : Env :=
  ⟨true, fun k r =>
    if k = 0 then (if r = .batch ["hello"] then some [[1]] else none)
    else if k = 1 then (if r = .batch ["world"] then some [[2]] else none)
    else none⟩

/-- Claim C6: on `["hello", "", "world"]` with batch size 2 and all requests
succeeding, the loop visits chunks `["hello", ""]` and `["world"]`, issues
exactly one request per chunk carrying only the non-blank items, and returns
the embedding of "hello" at index 0, an empty list at index 1, and the
embedding of "world" at index 2. -/
theorem embedDocuments_scenario_hello_world :
    chunks 2 [some "hello", some "", some "world"] =
      [[some "hello", some ""], [some "world"]] ∧
    embedDocuments c6Env 2 (some [some "hello", some "", some "world"]) =
      .ok ([[1], [], [2]], [.batch ["hello"], .batch ["world"]]) := by
  constructor
  · decide
  · have h : embedDocumentsRun c6Env 2 [some "hello", some "", some "world"] =
        ([[1], [], [2]], [.batch ["hello"], .batch ["world"]]) := by decide
    have hne : ([some "hello", some "", some "world"] : List Doc).isEmpty = false := by
      decide
    have hct : c6Env.ctorOk = true := rfl
    simp [embedDocuments, hne, hct, h]

/-- A label/value pair offered to the host's model dropdown. -/
structure NodePropertyOption where
  name : String
  value : String
deriving DecidableEq, Repr

/-- Outcome of the models-listing `fetch` in `getModels`: a thrown network
error, or a response with its `ok` flag, status text, and the parsed body's
optional `data` array (each `{id}` object represented by its `id`). -/
inductive FetchResult where
  | threw (msg : String)
  | resp (ok : Bool) (statusText : String) (data? : Option (List String))

/-- Embeds `getModels`: a non-ok response or a thrown fetch becomes a wrapped
error; on success `result.data || []` is mapped entrywise to
`{name: id, value: id}`, in server order. -/
def getModels : FetchResult → Except String (List NodePropertyOption)
  | .threw msg => .error ("Error fetching models from LM Studio: " ++ msg)
  | .resp ok st data? =>
    if ok then
      .ok ((data?.getD []).map fun id => ⟨id, id⟩)
    else
      .error ("Error fetching models from LM Studio: Failed to fetch models: " ++ st)

/-- Claim C7: for every successful models response, `getModels` returns one
`{name: id, value: id}` pair per `data` entry, the i-th output pair coming
from the i-th input id (no re-sorting, filtering, or deduplication); in
particular ids `["a", "b"]` yield exactly those two pairs in order. -/
theorem getModels_order (ids : List String) (st : String) :
    getModels (.resp true st (some ids)) = .ok (ids.map fun id => ⟨id, id⟩) ∧
    (ids.map fun id => (⟨id, id⟩ : NodePropertyOption)).length = ids.length ∧
    (∀ (i : Nat), (ids.map fun id => (⟨id, id⟩ : NodePropertyOption))[i]? =
      ids[i]?.map fun id => (⟨id, id⟩ : NodePropertyOption)) ∧
    getModels (.resp true st (some ["a", "b"])) =
      .ok [⟨"a", "a"⟩, ⟨"b", "b"⟩] := by
  refine ⟨by simp [getModels], List.length_map ids _, fun i => List.getElem?_map _ ids i,
    by simp [getModels]⟩

/-- JS truthiness of `credentials.apiKey`: an API key is configured iff it is
present and non-empty. -/
def apiKeyTruthy : Option String → Bool
  | none => false
  | some k => !k.isEmpty

/-- Embeds the header object of the two `fetch` calls in the node
(`getModels` and the `supplyData` connectivity check):
`{'Content-Type': ..., ...(credentials.apiKey && { Authorization: ... })}`. -/
def fetchHeaders (apiKey? : Option String) : List (String × String) :=
  ("Content-Type", "application/json") ::
    (if apiKeyTruthy apiKey? then
      [("Authorization", "Bearer " ++ apiKey?.getD "")]
    else [])

/-- Embeds the credential descriptor's `authenticate` block
(`LMStudioApi.credentials.ts`): the generic-auth headers the host applies to
credential-authenticated requests such as the credential test. The
`Authorization` property is declared unconditionally, whatever the key. -/
def authenticateHeaders (apiKey : String) : List (String × String) :=
  [("Authorization", "Bearer " ++ apiKey)]

/-- Whether a header list carries an `Authorization` entry. -/
def hasAuthHeader (hs : List (String × String)) : Bool :=
  hs.any fun p => p.1 == "Authorization"

/-- Counterexample to C8: with no API key configured (empty key, not truthy),
the credential descriptor's `authenticate` block still carries an
`Authorization` header (value `Bearer ` followed by nothing), so it is not
true that every request of the system omits the header when no key is set. -/
theorem authenticate_header_counterexample :
    hasAuthHeader (authenticateHeaders "") = true ∧
    apiKeyTruthy (some "") = false ∧
    authenticateHeaders "" = [("Authorization", "Bearer ")] := by
  decide

/-- Claim C8 as amended: the two `fetch`-based requests of the node (model listing
and the `supplyData` connectivity check) carry the `Authorization` header iff
a non-empty API key is configured, while the credential descriptor's
`authenticate` block carries it unconditionally. -/
theorem headers_amended :
    (∀ k?, hasAuthHeader (fetchHeaders k?) = apiKeyTruthy k?) ∧
    (∀ key, hasAuthHeader (authenticateHeaders key) = true) := by
  constructor
  · intro k?
    cases k? with
    | none => decide
    | some k =>
      by_cases hk : k.isEmpty <;>
        simp [fetchHeaders, apiKeyTruthy, hasAuthHeader, hk]
  · intro key
    simp [hasAuthHeader, authenticateHeaders]

/-- The index progression of `for (let i = 0; i < documents.length;
i += batchSize)` over a list of length `N`, with `batchSize` an arbitrary
(possibly non-positive) JS integer. Returns the number of iterations when the
loop exits within `fuel` steps, `none` when it is still running. -/
def chunkLoop (B : Int) (N : Nat) : Nat → Int → Option Nat
  | 0, i => if i < (N : Int) then none else some 0
  | fuel + 1, i =>
    if i < (N : Int) then (chunkLoop B N fuel (i + B)).map (· + 1) else some 0

theorem chunkLoop_stuck {B : Int} (hB : B ≤ 0) {N : Nat} :
    ∀ (fuel : Nat) (i : Int), i < (N : Int) → chunkLoop B N fuel i = none := by
  intro fuel
  induction fuel with
  | zero => intro i hi; simp [chunkLoop, hi]
  | succ fuel ih =>
    intro i hi
    have hi' : i + B < (N : Int) := by omega
    simp [chunkLoop, hi, ih (i + B) hi']

theorem chunkLoop_halts {B : Int} (_hB : 1 ≤ B) {N : Nat} :
    ∀ (fuel : Nat) (i : Int), (N : Int) ≤ i + (fuel : Int) * B →
      ∃ c, chunkLoop B N fuel i = some c := by
  intro fuel
  induction fuel with
  | zero =>
    intro i h
    simp only [Nat.cast_zero, zero_mul, add_zero] at h
    exact ⟨0, by simp [chunkLoop, not_lt.mpr h]⟩
  | succ fuel ih =>
    intro i h
    by_cases hi : i < (N : Int)
    · have hexp : ((fuel + 1 : Nat) : Int) * B = (fuel : Int) * B + B := by
        push_cast; ring
      have h' : (N : Int) ≤ (i + B) + (fuel : Int) * B := by
        rw [hexp] at h; linarith
      obtain ⟨c, hc⟩ := ih (i + B) h'
      exact ⟨c + 1, by simp [chunkLoop, hi, hc]⟩
    · exact ⟨0, by simp [chunkLoop, hi]⟩

theorem chunksAux_length {B : Nat} (hB : 1 ≤ B) :
    ∀ (fuel : Nat) (l : List Doc), l.length ≤ fuel →
      (chunksAux B fuel l).length = (l.length + B - 1) / B := by
  intro fuel
  induction fuel with
  | zero =>
    intro l h
    have hl : l = [] := List.eq_nil_of_length_eq_zero (Nat.le_zero.mp h)
    subst hl
    simp [chunksAux, Nat.div_eq_of_lt (show B - 1 < B by omega)]
  | succ fuel ih =>
    intro l h
    cases l with
    | nil => simp [chunksAux, Nat.div_eq_of_lt (show B - 1 < B by omega)]
    | cons d rest =>
      have hdrop : ((d :: rest).drop B).length ≤ fuel := by
        rw [List.length_drop]
        simp only [List.length_cons] at h ⊢
        omega
      have hih := ih _ hdrop
      show (chunksAux B fuel ((d :: rest).drop B)).length + 1 =
        ((d :: rest).length + B - 1) / B
      rw [hih, List.length_drop]
      have hn : 1 ≤ (d :: rest).length := by simp
      rcases Nat.le_total (d :: rest).length B with hnB | hnB
      · rw [Nat.sub_eq_zero_of_le hnB,
          Nat.div_eq_of_lt (show 0 + B - 1 < B by omega)]
        symm
        apply Nat.div_eq_of_lt_le
        · omega
        · omega
      · have h2 : (d :: rest).length - B + B - 1 = (d :: rest).length - 1 := by omega
        have h3 : (d :: rest).length + B - 1 = ((d :: rest).length - 1) + B := by omega
        rw [h2, h3, Nat.add_div_right _ (by omega : 0 < B)]

theorem chunksAux_sizes (B : Nat) : ∀ (fuel : Nat) (l : List Doc),
    ∀ c ∈ chunksAux B fuel l, c.length ≤ B := by
  intro fuel
  induction fuel with
  | zero => intro l c hc; simp [chunksAux] at hc
  | succ fuel ih =>
    intro l c hc
    cases l with
    | nil => simp [chunksAux] at hc
    | cons d rest =>
      rcases List.mem_cons.mp hc with h | h
      · subst h; exact List.length_take_le B (d :: rest)
      · exact ih _ c h

/-- Claim C9: for a non-empty list of length N and batch size B ≥ 1, the chunk
loop terminates, visiting exactly ceil(N / B) chunks of size at most B that
cover the input consecutively without overlap (their concatenation is the
input); the literal index progression also halts within N steps. With
B ≤ 0 the index never advances past 0, so the loop never exits. -/
theorem chunk_loop_termination (B : Nat) (docs : List Doc)
    (hB : 1 ≤ B) (hne : docs ≠ []) :
    ((chunks B docs).length = (docs.length + B - 1) / B ∧
      (chunks B docs).flatten = docs ∧
      ∀ c ∈ chunks B docs, c.length ≤ B) ∧
    (∃ c, chunkLoop (B : Int) docs.length docs.length 0 = some c) ∧
    (∀ B2 : Int, B2 ≤ 0 → ∀ fuel, chunkLoop B2 docs.length fuel 0 = none) := by
  refine ⟨⟨chunksAux_length hB docs.length docs le_rfl, chunks_join hB docs,
    fun c hc => chunksAux_sizes B docs.length docs c hc⟩, ?_, ?_⟩
  · apply chunkLoop_halts (by exact_mod_cast hB) docs.length 0
    have h1 : (docs.length : Int) * 1 ≤ (docs.length : Int) * (B : Int) := by
      apply mul_le_mul_of_nonneg_left (by exact_mod_cast hB) (by positivity)
    linarith
  · intro B2 hB2 fuel
    apply chunkLoop_stuck hB2 fuel 0
    have : 0 < docs.length := List.length_pos.mpr hne
    exact_mod_cast this

/-- Witness for C9: three documents, batch size 2. -/
theorem chunk_loop_termination_witness :
    (chunks 2 [some "a", none, some "b"]).length = 2 ∧
    (chunks 2 [some "a", none, some "b"]).flatten = [some "a", none, some "b"] ∧
    chunkLoop 0 3 5 0 = none := by
  have h := chunk_loop_termination 2 [some "a", none, some "b"] (by decide) (by decide)
  exact ⟨h.1.1, h.1.2.1, h.2.2 0 (by decide) 5⟩

/-- Embeds `baseUrl.replace(/\\/g, '/')`: every backslash becomes a slash. -/
def normalizeBaseUrl (s : String) : String :=
  String.map (fun c => if c = '\\' then '/' else c) s

/-- Outcome of the connectivity-check `fetch` in `supplyData`: a thrown
network error, or a response with its `ok` flag and status text. -/
inductive FetchOutcome where
  | threw (msg : String)
  | resp (ok : Bool) (statusText : String)

/-- The provider object `supplyData` returns: the pair of closures
`embedQuery` / `embedDocuments` defined above. -/
structure Provider where
  embedQuery : Env → Option String → Except String Emb × List ReqInput
  embedDocuments : Env → Nat → Option (List Doc) → Except String (List Emb × List ReqInput)

/-- The value `supplyData` builds on success. -/
def theProvider : Provider :=
  ⟨embedQuery, embedDocuments⟩

/-- Embeds `supplyData`: normalizes the base URL, issues one GET to
`{baseUrl}/models`, wraps a thrown fetch or a non-ok status into the
`LM Studio connection failed` error, and otherwise returns the embedding
provider. Also returns the list of GET URLs issued. -/
def supplyData (baseUrl : String) (conn : String → FetchOutcome) :
    Except String Provider × List String :=
  let url := normalizeBaseUrl baseUrl ++ "/models"
  (match conn url with
    | .threw m => .error ("LM Studio connection failed: " ++ m)
    | .resp ok st =>
      if ok then .ok theProvider
      else .error ("LM Studio connection failed: Cannot connect to LM Studio: " ++ st),
    [url])

/-- Claim C10: `supplyData` always issues exactly one GET to the normalized
`{baseUrl}/models` before anything else; it returns the provider exposing
`embedQuery`/`embedDocuments` iff that request came back with a success
status, and in every other case it fails with an error prefixed
`LM Studio connection failed`. -/
theorem supplyData_gate (baseUrl : String) (conn : String → FetchOutcome) :
    (supplyData baseUrl conn).2 = [normalizeBaseUrl baseUrl ++ "/models"] ∧
    ((∃ p, (supplyData baseUrl conn).1 = .ok p) ↔
      ∃ st, conn (normalizeBaseUrl baseUrl ++ "/models") = .resp true st) ∧
    ((supplyData baseUrl conn).1 = .ok theProvider ∨
      ∃ rest, (supplyData baseUrl conn).1 =
        .error ("LM Studio connection failed: " ++ rest)) := by
  cases hc : conn (normalizeBaseUrl baseUrl ++ "/models") with
  | threw m =>
    have h1 : (supplyData baseUrl conn).1 =
        .error ("LM Studio connection failed: " ++ m) := by
      simp [supplyData, hc]
    refine ⟨rfl, ⟨?_, ?_⟩, Or.inr ⟨m, h1⟩⟩
    · rintro ⟨p, hp⟩
      rw [h1] at hp
      cases hp
    · rintro ⟨st, hst⟩
      cases hst
  | resp ok st =>
    cases ok with
    | true =>
      have h1 : (supplyData baseUrl conn).1 = .ok theProvider := by
        simp [supplyData, hc]
      exact ⟨rfl, ⟨fun _ => ⟨st, rfl⟩, fun _ => ⟨theProvider, h1⟩⟩, Or.inl h1⟩
    | false =>
      have h1 : (supplyData baseUrl conn).1 =
          .error ("LM Studio connection failed: Cannot connect to LM Studio: " ++ st) := by
        simp [supplyData, hc]
      refine ⟨rfl, ⟨?_, ?_⟩,
        Or.inr ⟨"Cannot connect to LM Studio: " ++ st, by
          rw [h1, ← String.append_assoc]; rfl⟩⟩
      · rintro ⟨p, hp⟩
        rw [h1] at hp
        cases hp
      · rintro ⟨st', hst'⟩
        cases hst'

end LMStudio
